import Mathlib

/-!
Verification development for the ArtManager repository (src/art_manager.py).

The program is a PyQt5 art cataloguer backed by a SQLite store.  We shallowly
embed the core operations over explicit state:

* strings are `List Char` (`s2l` converts a Lean string literal);
* an artwork row is `Artwork` (id, name, filepath, artist, denormalized
  comma-joined `tags` field), the store is `Catalog` (artworks table plus the
  canonical `tags` table as a list of tag names);
* the filesystem is a list of paths present on disk; `writeFile` models a file
  write (ensures presence), `removeFile` models `os.remove` wrapped in
  `try/except` (absence tolerated);
* SQLite's `LIKE '%tag%'` filter is modelled by `likeMatch` (ASCII
  case-insensitive, `%`/`_` wildcards, exactly SQLite's default semantics);
* Python's `str.split(',')` / `','.join` are `splitOnComma` / `joinComma`
  with Python's semantics (`"".split(',') = [""]`, etc.).

All definitions are translated from the source; definitions whose doc comment
says "spec-level" restate the specification's words for refinement claims.
-/

/-- Convert a Lean string literal to the `List Char` representation used
throughout the embedding. -/
def s2l (s : String) : List Char := s.data

/-- Python `tags.split(',')`: always returns one more part than there are
commas; `"".split(',') = [""]`. -/
def splitOnComma : List Char → List (List Char)
  | [] => [[]]
  | c :: rest =>
    if c = ',' then [] :: splitOnComma rest
    else
      match splitOnComma rest with
      | [] => [[c]]
      | p :: ps => (c :: p) :: ps

/-- Python `','.join(parts)`. -/
def joinComma : List (List Char) → List Char
  | [] => []
  | [p] => p
  | p :: q :: ps => p ++ ',' :: joinComma (q :: ps)

/-- SQLite `LIKE` compares ASCII letters case-insensitively. -/
def charEqCI (a b : Char) : Bool := decide (a.toLower = b.toLower)

/-- SQLite `LIKE` pattern matching (default: no ESCAPE clause, `%` matches any
sequence, `_` matches any single character, plain characters match ASCII
case-insensitively).  First argument is the pattern, second the text. -/
def likeMatch : List Char → List Char → Bool
  | [], t => t.isEmpty
  | c :: ps, t =>
    if c = '%' then (t.tails).any (likeMatch ps)
    else if c = '_' then
      match t with
      | [] => false
      | _ :: ts => likeMatch ps ts
    else
      match t with
      | [] => false
      | d :: ts => charEqCI c d && likeMatch ps ts

/-- An artwork row of the `artworks` table. -/
structure Artwork where
  id : Nat
  name : List Char
  filepath : List Char
  artist : List Char
  tags : List Char
deriving DecidableEq

/-- The relational store: the `artworks` table in iteration order, and the
canonical `tags` table (tag names; `tag` is the primary key). -/
structure Catalog where
  artworks : List Artwork
  tagTable : List (List Char)
deriving DecidableEq

/-- The per-artwork rewrite performed by `ArtManager.remove_tag`: rows whose
`tags` field matches `LIKE '%tag%'` get the exact token filtered out of the
comma-split list and rejoined; other rows are untouched. -/
def removeStep (tag : List Char) (a : Artwork) : Artwork :=
  if likeMatch ('%' :: (tag ++ ['%'])) a.tags then
    { a with tags := joinComma ((splitOnComma a.tags).filter (fun t => ¬ t = tag)) }
  else a

/-- `ArtManager.remove_tag`: delete the canonical row, then rewrite every
artwork matched by the `LIKE` superset filter; committed together. -/
def remove_tag (tag : List Char) (s : Catalog) : Catalog :=
  { artworks := s.artworks.map (removeStep tag),
    tagTable := s.tagTable.filter (fun t => ¬ t = tag) }

/-- Token substitution used by `ArtManager.rename_tag`'s list comprehension
`[new if t == old else t for t in tags.split(',')]`. -/
def substTok (old new t : List Char) : List Char := if t = old then new else t

/-- The per-artwork rewrite performed by `ArtManager.rename_tag`. -/
def renameStep (old new : List Char) (a : Artwork) : Artwork :=
  if likeMatch ('%' :: (old ++ ['%'])) a.tags then
    { a with tags := joinComma ((splitOnComma a.tags).map (substTok old new)) }
  else a

/-- Result of `ArtManager.rename_tag`: `ok = false` means the
`UPDATE tags SET tag=new WHERE tag=old` raised `IntegrityError` and the whole
transaction (including the artwork rewrites executed first) was rolled back. -/
structure RenameResult where
  ok : Bool
  state : Catalog
deriving DecidableEq

/-- `ArtManager.rename_tag`: first rewrites every artwork matched by
`LIKE '%old%'`, then updates the canonical row.  The primary-key update raises
`IntegrityError` exactly when a row `old` exists, a distinct row `new` already
exists; in that case `conn.rollback()` restores the pre-call state. -/
def rename_tag (old new : List Char) (s : Catalog) : RenameResult :=
  let pendingArts := s.artworks.map (renameStep old new)
  if old ∈ s.tagTable ∧ new ∈ s.tagTable ∧ ¬ old = new then
    { ok := false, state := s }
  else
    { ok := true,
      state := { artworks := pendingArts,
                 tagTable := s.tagTable.map (fun t => if t = old then new else t) } }

theorem splitOnComma_ne_nil (s : List Char) : splitOnComma s ≠ [] := by
  induction s with
  | nil => simp [splitOnComma]
  | cons c rest ih =>
    simp only [splitOnComma]
    split
    · simp
    · cases h : splitOnComma rest with
      | nil => simp
      | cons p ps => simp

theorem not_comma_mem_splitOnComma (s : List Char) :
    ∀ p ∈ splitOnComma s, ¬ ',' ∈ p := by
  induction s with
  | nil => intro p hp; simp [splitOnComma] at hp; simp [hp]
  | cons c rest ih =>
    intro p hp
    simp only [splitOnComma] at hp
    by_cases hc : c = ','
    · simp [hc] at hp
      rcases hp with h | h
      · simp [h]
      · exact ih p h
    · simp only [if_neg hc] at hp
      cases h : splitOnComma rest with
      | nil => exact absurd h (splitOnComma_ne_nil rest)
      | cons q qs =>
        rw [h] at hp
        simp at hp
        rcases hp with h1 | h1
        · subst h1
          have hq : ¬ ',' ∈ q := ih q (by rw [h]; exact List.mem_cons_self q qs)
          simp [hc, hq]
          intro hcc
          exact hc hcc.symm
        · exact ih p (by rw [h]; exact List.mem_cons_of_mem q h1)

theorem splitOnComma_single (p : List Char) (h : ¬ ',' ∈ p) :
    splitOnComma p = [p] := by
  induction p with
  | nil => simp [splitOnComma]
  | cons c rest ih =>
    simp at h
    have hc : ¬ c = ',' := fun hcc => h.1 hcc.symm
    simp only [splitOnComma, if_neg hc]
    rw [ih h.2]

theorem splitOnComma_append_comma (p t : List Char) (h : ¬ ',' ∈ p) :
    splitOnComma (p ++ ',' :: t) = p :: splitOnComma t := by
  induction p with
  | nil => simp [splitOnComma]
  | cons c rest ih =>
    simp at h
    have hc : ¬ c = ',' := fun hcc => h.1 hcc.symm
    simp only [List.cons_append, splitOnComma, if_neg hc, List.append_eq]
    rw [ih h.2]

theorem splitOnComma_joinComma (ps : List (List Char)) (h1 : ps ≠ [])
    (h2 : ∀ p ∈ ps, ¬ ',' ∈ p) : splitOnComma (joinComma ps) = ps := by
  induction ps with
  | nil => exact absurd rfl h1
  | cons p rest ih =>
    cases rest with
    | nil =>
      simp only [joinComma]
      exact splitOnComma_single p (h2 p (List.mem_cons_self p []))
    | cons q qs =>
      simp only [joinComma]
      rw [splitOnComma_append_comma p _ (h2 p (List.mem_cons_self p _))]
      rw [ih (by simp) (fun r hr => h2 r (List.mem_cons_of_mem p hr))]

theorem splitOnComma_head_prefix (s : List Char) :
    ∃ hd tl, splitOnComma s = hd :: tl ∧ hd <+: s := by
  induction s with
  | nil =>
    refine ⟨[], [], rfl, ?_⟩
    exact List.nil_prefix
  | cons c rest ih =>
    by_cases hc : c = ','
    · refine ⟨[], splitOnComma rest, by simp [splitOnComma, hc], ?_⟩
      exact List.nil_prefix
    · obtain ⟨hd, tl, heq, hpre⟩ := ih
      refine ⟨c :: hd, tl, ?_, ?_⟩
      · simp only [splitOnComma, if_neg hc, heq]
      · exact (List.prefix_cons_inj c).mpr hpre

theorem infix_of_mem_splitOnComma (s t : List Char) (h : t ∈ splitOnComma s) :
    t <:+: s := by
  induction s generalizing t with
  | nil => simp [splitOnComma] at h; simp [h]
  | cons c rest ih =>
    by_cases hc : c = ','
    · simp [splitOnComma, hc] at h
      rcases h with h | h
      · simp [h]
      · exact (ih t h).trans (List.infix_cons (List.infix_refl rest))
    · simp only [splitOnComma, if_neg hc] at h
      obtain ⟨hd, tl, heq, hpre⟩ := splitOnComma_head_prefix rest
      rw [heq] at h
      simp at h
      rcases h with h | h
      · subst h
        exact ((List.prefix_cons_inj c).mpr hpre).isInfix
      · have : t ∈ splitOnComma rest := by rw [heq]; exact List.mem_cons_of_mem hd h
        exact (ih t this).trans (List.infix_cons (List.infix_refl rest))

theorem charEqCI_refl (c : Char) : charEqCI c c = true := by
  simp [charEqCI]

theorem likeMatch_pct_cons (ps t : List Char) :
    likeMatch ('%' :: ps) t = (t.tails).any (likeMatch ps) := by
  simp [likeMatch]

theorem likeMatch_pct (v : List Char) : likeMatch ['%'] v = true := by
  rw [likeMatch_pct_cons, List.any_eq_true]
  refine ⟨[], ?_, rfl⟩
  rw [List.mem_tails]
  exact List.nil_suffix

theorem likeMatch_self_append (t v : List Char) :
    likeMatch (t ++ ['%']) (t ++ v) = true := by
  induction t with
  | nil => simpa using likeMatch_pct v
  | cons c rest ih =>
    by_cases hc : c = '%'
    · subst hc
      rw [List.cons_append, likeMatch_pct_cons, List.any_eq_true]
      refine ⟨rest ++ v, ?_, ih⟩
      rw [List.mem_tails]
      exact List.suffix_cons '%' (rest ++ v)
    · by_cases hu : c = '_'
      · simp only [List.cons_append, likeMatch, if_neg hc, if_pos hu]
        exact ih
      · simp only [List.cons_append, likeMatch, if_neg hc, if_neg hu]
        simp [charEqCI_refl, ih]

theorem likeMatch_of_infix (t s : List Char) (h : t <:+: s) :
    likeMatch ('%' :: (t ++ ['%'])) s = true := by
  obtain ⟨u, v, rfl⟩ := h
  rw [likeMatch_pct_cons, List.any_eq_true]
  refine ⟨t ++ v, ?_, likeMatch_self_append t v⟩
  rw [List.mem_tails, List.append_assoc]
  exact List.suffix_append u (t ++ v)

theorem likeMatch_of_mem_splitOnComma (tag s : List Char)
    (h : tag ∈ splitOnComma s) :
    likeMatch ('%' :: (tag ++ ['%'])) s = true :=
  likeMatch_of_infix tag s (infix_of_mem_splitOnComma s tag h)

theorem mem_splitOnComma_of_count_pos (t : List Char) (l : List (List Char))
    (h : List.count t l ≠ 0) : t ∈ l := by
  by_contra hmem
  exact h (List.count_eq_zero.mpr hmem)

theorem tokens_removeStep_of_match (tag : List Char) (a : Artwork)
    (hm : likeMatch ('%' :: (tag ++ ['%'])) a.tags = true)
    (hne : (splitOnComma a.tags).filter (fun t => ¬ t = tag) ≠ []) :
    splitOnComma ((removeStep tag a).tags) =
      (splitOnComma a.tags).filter (fun t => ¬ t = tag) := by
  simp only [removeStep, if_pos hm]
  apply splitOnComma_joinComma _ hne
  intro p hp
  exact not_comma_mem_splitOnComma a.tags p (List.mem_filter.mp hp).1

theorem tokens_renameStep_of_match (old new : List Char) (a : Artwork)
    (hnc : ¬ ',' ∈ new)
    (hm : likeMatch ('%' :: (old ++ ['%'])) a.tags = true) :
    splitOnComma ((renameStep old new a).tags) =
      (splitOnComma a.tags).map (substTok old new) := by
  simp only [renameStep, if_pos hm]
  apply splitOnComma_joinComma
  · intro hmap
    exact splitOnComma_ne_nil a.tags (List.map_eq_nil_iff.mp hmap)
  · intro p hp
    obtain ⟨q, hq, hpq⟩ := List.mem_map.mp hp
    subst hpq
    unfold substTok
    split
    · exact hnc
    · exact not_comma_mem_splitOnComma a.tags q hq

theorem not_mem_map_subst (old new : List Char) (hne : ¬ old = new)
    (toks : List (List Char)) : ¬ old ∈ toks.map (substTok old new) := by
  intro hmem
  obtain ⟨t, _, ht⟩ := List.mem_map.mp hmem
  unfold substTok at ht
  split at ht
  · exact hne ht.symm
  · exact (by assumption : ¬ t = old) ht

theorem count_map_subst (old new : List Char) (hne : ¬ old = new)
    (toks : List (List Char)) :
    List.count new (toks.map (substTok old new)) =
      List.count old toks + List.count new toks := by
  induction toks with
  | nil => simp
  | cons t rest ih =>
    have hsymm : ¬ new = old := fun h => hne h.symm
    by_cases h1 : t = old
    · subst h1
      simp [substTok, List.count_cons, ih, hne, hsymm]
      omega
    · by_cases h2 : t = new
      · subst h2
        simp [substTok, List.count_cons, ih, h1, hsymm]
        omega
      · simp [substTok, List.count_cons, ih, h1, h2]

/-- Claim C3: after `remove_tag`, no artwork's denormalized tags field contains
the deleted token, and every other token (in particular tokens having the
deleted token as a proper substring, e.g. `cart` when `art` is deleted) is
preserved with its multiplicity.  The hypothesis `tag ≠ []` reflects that every
canonical tag is a nonempty string (`add_tag` rejects empty input). -/
theorem remove_tag_spec (s : Catalog) (tag : List Char) (htag : tag ≠ []) :
    ((remove_tag tag s).artworks = s.artworks.map (removeStep tag)) ∧
    (∀ a ∈ (remove_tag tag s).artworks, ¬ tag ∈ splitOnComma a.tags) ∧
    (∀ a ∈ s.artworks, ∀ t, ¬ t = tag → t ∈ splitOnComma a.tags →
      List.count t (splitOnComma ((removeStep tag a).tags)) =
        List.count t (splitOnComma a.tags)) := by
  refine ⟨rfl, ?_, ?_⟩
  · intro a ha
    simp only [remove_tag, List.mem_map] at ha
    obtain ⟨b, _, rfl⟩ := ha
    by_cases hm : likeMatch ('%' :: (tag ++ ['%'])) b.tags = true
    · by_cases hne : (splitOnComma b.tags).filter (fun t => ¬ t = tag) = []
      · simp only [removeStep, if_pos hm, hne, joinComma]
        intro hmem
        simp [splitOnComma] at hmem
        exact htag hmem
      · rw [tokens_removeStep_of_match tag b hm hne]
        intro hmem
        have := (List.mem_filter.mp hmem).2
        simp at this
    · have hb : removeStep tag b = b := by
        simp [removeStep, hm]
      rw [hb]
      intro hmem
      exact hm (likeMatch_of_mem_splitOnComma tag b.tags hmem)
  · intro a _ t htne htmem
    by_cases hm : likeMatch ('%' :: (tag ++ ['%'])) a.tags = true
    · have hne : (splitOnComma a.tags).filter (fun x => ¬ x = tag) ≠ [] := by
        intro hnil
        have : t ∈ (splitOnComma a.tags).filter (fun x => ¬ x = tag) :=
          List.mem_filter.mpr ⟨htmem, by simp [htne]⟩
        rw [hnil] at this
        exact List.not_mem_nil t this
      rw [tokens_removeStep_of_match tag a hm hne]
      exact List.count_filter (by simp [htne])
    · have ha : removeStep tag a = a := by
        simp [removeStep, hm]
      rw [ha]

/-- Witness for `remove_tag_spec`: deleting tag `art` from a store whose only
artwork carries tags `art,cart` keeps the token `cart` intact. -/
theorem remove_tag_spec_witness :
    List.count (s2l "cart")
        (splitOnComma ((removeStep (s2l "art")
          ⟨1, s2l "x", s2l "p", [], s2l "art,cart"⟩).tags)) =
      List.count (s2l "cart") (splitOnComma (s2l "art,cart")) :=
  (remove_tag_spec ⟨[⟨1, s2l "x", s2l "p", [], s2l "art,cart"⟩], [s2l "art"]⟩
      (s2l "art") (by decide)).2.2
    ⟨1, s2l "x", s2l "p", [], s2l "art,cart"⟩ (by decide)
    (s2l "cart") (by decide) (by decide)

/-- Claim C1 counterexample: the store holds one artwork whose tags field is
`a,b` and a canonical tag `a` only, so `rename_tag a b` succeeds (no `b` row
exists).  The artwork previously contained the token `a`, yet afterwards the
token `b` occurs twice, not exactly once: the substitution keeps the
pre-existing `b` token and adds another. -/
theorem rename_tag_counterexample :
    ((rename_tag (s2l "a") (s2l "b")
        ⟨[⟨1, s2l "x", s2l "p", [], s2l "a,b"⟩], [s2l "a"]⟩).ok = true) ∧
    (s2l "a") ∈ splitOnComma (s2l "a,b") ∧
    ((rename_tag (s2l "a") (s2l "b")
        ⟨[⟨1, s2l "x", s2l "p", [], s2l "a,b"⟩], [s2l "a"]⟩).state.artworks.map
      (fun a => List.count (s2l "b") (splitOnComma a.tags))) = [2] := by
  decide

/-- Claim C1 (amended): for a successful `rename_tag old new` with `old ≠ new`
and `new` free of the comma delimiter, afterwards no artwork's tags field
contains the exact token `old`; an artwork that previously contained `old` now
contains `new` (old-count + previous new-count) times, hence exactly once
whenever it previously contained `old` exactly once and did not already
contain `new`. -/
theorem rename_tag_tokens (s : Catalog) (old new : List Char)
    (hne : ¬ old = new) (hnc : ¬ ',' ∈ new)
    (hok : (rename_tag old new s).ok = true) :
    ((rename_tag old new s).state.artworks = s.artworks.map (renameStep old new)) ∧
    (∀ a ∈ s.artworks,
      ¬ old ∈ splitOnComma ((renameStep old new a).tags) ∧
      (old ∈ splitOnComma a.tags →
        List.count new (splitOnComma ((renameStep old new a).tags)) =
          List.count old (splitOnComma a.tags) +
            List.count new (splitOnComma a.tags)) ∧
      (List.count old (splitOnComma a.tags) = 1 ∧
          ¬ new ∈ splitOnComma a.tags →
        List.count new (splitOnComma ((renameStep old new a).tags)) = 1)) := by
  constructor
  · by_cases hc : old ∈ s.tagTable ∧ new ∈ s.tagTable ∧ ¬ old = new
    · simp [rename_tag, hc] at hok
    · simp [rename_tag, hc]
  · intro a _
    by_cases hm : likeMatch ('%' :: (old ++ ['%'])) a.tags = true
    · rw [tokens_renameStep_of_match old new a hnc hm]
      refine ⟨not_mem_map_subst old new hne _,
        fun _ => count_map_subst old new hne _, ?_⟩
      rintro ⟨h1, h2⟩
      rw [count_map_subst old new hne, h1, List.count_eq_zero.mpr h2]
    · have hstep : renameStep old new a = a := by
        simp [renameStep, hm]
      have hno : ¬ old ∈ splitOnComma a.tags := fun hmem =>
        hm (likeMatch_of_mem_splitOnComma old a.tags hmem)
      refine ⟨by rw [hstep]; exact hno, fun hmem => absurd hmem hno, ?_⟩
      rintro ⟨h1, _⟩
      exact absurd (mem_splitOnComma_of_count_pos old _ (by rw [h1]; simp)) hno

/-- Witness for `rename_tag_tokens`: renaming `a` to `b` in a store whose only
artwork has tags `a,c` removes the token `a` and yields `b` exactly once. -/
theorem rename_tag_tokens_witness :
    ¬ (s2l "a") ∈ splitOnComma
        ((renameStep (s2l "a") (s2l "b")
          ⟨1, s2l "x", s2l "p", [], s2l "a,c"⟩).tags) ∧
    List.count (s2l "b") (splitOnComma
        ((renameStep (s2l "a") (s2l "b")
          ⟨1, s2l "x", s2l "p", [], s2l "a,c"⟩).tags)) = 1 := by
  have h := (rename_tag_tokens
      ⟨[⟨1, s2l "x", s2l "p", [], s2l "a,c"⟩], [s2l "a"]⟩
      (s2l "a") (s2l "b") (by decide) (by decide) (by decide)).2
      ⟨1, s2l "x", s2l "p", [], s2l "a,c"⟩ (by decide)
  exact ⟨h.1, h.2.2 ⟨by decide, by decide⟩⟩

/-- Claim C6 counterexample: the tag table holds only `b`.  Renaming `a` to
`b` succeeds (`ok = true`) even though a tag named `b` already exists, because
no row `a` exists, so the primary-key UPDATE matches nothing and raises no
duplicate error. -/
theorem rename_tag_dup_counterexample :
    (s2l "b") ∈ (Catalog.mk [] [s2l "b"]).tagTable ∧
    (rename_tag (s2l "a") (s2l "b") (Catalog.mk [] [s2l "b"])).ok = true := by
  decide

/-- Claim C6 (amended): `rename_tag old new` fails with the duplicate-tag
error when `new` exists, `old` also exists as a canonical row, and
`old ≠ new`; in that failure case the rollback makes the whole operation
atomic: the canonical tag table and every artwork's denormalized tags field
are left exactly as before the call. -/
theorem rename_tag_duplicate_atomic (s : Catalog) (old new : List Char)
    (h1 : old ∈ s.tagTable) (h2 : new ∈ s.tagTable) (h3 : ¬ old = new) :
    (rename_tag old new s).ok = false ∧ (rename_tag old new s).state = s := by
  simp [rename_tag, h1, h2, h3]

/-- Witness for `rename_tag_duplicate_atomic` at a concrete store holding
canonical tags `a` and `b` and one artwork tagged `a`. -/
theorem rename_tag_duplicate_atomic_witness :
    (rename_tag (s2l "a") (s2l "b")
      (Catalog.mk [⟨1, s2l "x", s2l "p", [], s2l "a"⟩] [s2l "a", s2l "b"])).ok
        = false ∧
    (rename_tag (s2l "a") (s2l "b")
      (Catalog.mk [⟨1, s2l "x", s2l "p", [], s2l "a"⟩] [s2l "a", s2l "b"])).state
        = Catalog.mk [⟨1, s2l "x", s2l "p", [], s2l "a"⟩] [s2l "a", s2l "b"] :=
  rename_tag_duplicate_atomic
    (Catalog.mk [⟨1, s2l "x", s2l "p", [], s2l "a"⟩] [s2l "a", s2l "b"])
    (s2l "a") (s2l "b") (by decide) (by decide) (by decide)

/-- Python whitespace characters recognised by `str.split()` / `str.strip()`
(ASCII range, as used by the program's query strings). -/
def isSpace (c : Char) : Bool :=
  c = ' ' ∨ c = '\t' ∨ c = '\n' ∨ c = '\r' ∨ c = '\x0b' ∨ c = '\x0c'

/-- Python `str.lower()` restricted to ASCII letters (all data handled by the
program is ASCII; SQLite's LIKE folds the same range). -/
def lowerStr (s : List Char) : List Char := s.map Char.toLower

/-- Python `str.strip()`. -/
def stripStr (s : List Char) : List Char :=
  ((s.dropWhile isSpace).reverse.dropWhile isSpace).reverse

/-- Accumulator-based splitting on whitespace runs; `cur` holds the current
word reversed.  Mirrors Python `str.split()` (no empty words). -/
def splitWsAux : List Char → List Char → List (List Char)
  | [], cur => if cur = [] then [] else [cur.reverse]
  | c :: rest, cur =>
    if isSpace c then
      if cur = [] then splitWsAux rest []
      else cur.reverse :: splitWsAux rest []
    else splitWsAux rest (c :: cur)

/-- Python `str.split()` with no arguments. -/
def splitWs (s : List Char) : List (List Char) := splitWsAux s []

/-- Query terms of `ArtManager.search_art`:
`[t for t in self.search_input.text().strip().lower().split() if t]`. -/
def queryTerms (q : List Char) : List (List Char) :=
  (splitWs (lowerStr (stripStr q))).filter (fun t => ¬ t = [])

/-- Executable prefix test used to decide Python's substring operator. -/
def isPrefixB : List Char → List Char → Bool
  | [], _ => true
  | _ :: _, [] => false
  | a :: as, b :: bs => a = b && isPrefixB as bs

/-- Python's `term in field` substring test. -/
def infixB (t f : List Char) : Bool := (f.tails).any (isPrefixB t)

/-- The fields a search term is matched against:
`[name_val, artist_val] + tag_vals` with
`tag_vals = [t.lower() for t in tags.split(',')] if tags else []`. -/
def artFields (a : Artwork) : List (List Char) :=
  [lowerStr a.name, lowerStr a.artist] ++
    (if a.tags = [] then [] else (splitOnComma a.tags).map lowerStr)

/-- The row filter of `ArtManager.search_art`:
`all(any(term in field for field in fields) for term in terms)`. -/
def codeMatches (terms : List (List Char)) (a : Artwork) : Bool :=
  terms.all (fun term => (artFields a).any (fun f => infixB term f))

/-- `ArtManager.search_art`: rows are scanned in store order and filtered by
`codeMatches`; when the term list is empty the result list is cleared and
every row is re-added, so the final contents are all rows. -/
def search_art (q : List Char) (rows : List Artwork) : List Artwork :=
  let terms := queryTerms q
  let matched := rows.filter (fun a => codeMatches terms a)
  if terms = [] then rows else matched

/-- Spec-level match predicate (from the specification's words): every term is
a substring of the lower-cased name, the lower-cased artist, or some one of
the lower-cased tag tokens. -/
def specMatch (terms : List (List Char)) (a : Artwork) : Prop :=
  ∀ t ∈ terms,
    t <:+: lowerStr a.name ∨ t <:+: lowerStr a.artist ∨
    ∃ tok ∈ (if a.tags = [] then ([] : List (List Char))
             else splitOnComma a.tags), t <:+: lowerStr tok

theorem isPrefixB_iff (t f : List Char) : isPrefixB t f = true ↔ t <+: f := by
  induction t generalizing f with
  | nil => simp [isPrefixB, List.nil_prefix]
  | cons a as ih =>
    cases f with
    | nil => simp [isPrefixB]
    | cons b bs =>
      simp [isPrefixB, ih, List.cons_prefix_cons]

theorem infixB_iff (t f : List Char) : infixB t f = true ↔ t <:+: f := by
  simp only [infixB, List.any_eq_true, List.mem_tails, isPrefixB_iff]
  constructor
  · rintro ⟨x, hsuf, hpre⟩
    exact List.IsInfix.trans hpre.isInfix hsuf.isInfix
  · intro h
    obtain ⟨u, v, rfl⟩ := h
    refine ⟨t ++ v, ?_, List.prefix_append t v⟩
    rw [List.append_assoc]
    exact List.suffix_append u (t ++ v)

theorem any_artFields_iff (t : List Char) (a : Artwork) :
    ((artFields a).any (fun f => infixB t f) = true) ↔
      (t <:+: lowerStr a.name ∨ t <:+: lowerStr a.artist ∨
        ∃ tok ∈ (if a.tags = [] then ([] : List (List Char))
                 else splitOnComma a.tags), t <:+: lowerStr tok) := by
  by_cases htags : a.tags = []
  · simp [artFields, htags, infixB_iff]
  · simp [artFields, htags, List.any_map, Function.comp, List.any_eq_true,
      infixB_iff]

theorem codeMatches_iff_specMatch (terms : List (List Char)) (a : Artwork) :
    codeMatches terms a = true ↔ specMatch terms a := by
  simp only [codeMatches, specMatch, List.all_eq_true]
  apply forall_congr'
  intro t
  apply imp_congr_right
  intro _
  exact any_artFields_iff t a

/-- Substring containment of character lists is decidable through `infixB`. -/
instance infixCharDecidable (t f : List Char) : Decidable (t <:+: f) :=
  decidable_of_iff (infixB t f = true) (infixB_iff t f)

/-- The spec-level match predicate is decidable, so it can be used as a
filter. -/
instance specMatchDecidable (terms : List (List Char)) (a : Artwork) :
    Decidable (specMatch terms a) := by
  unfold specMatch
  exact inferInstance

/-- Claim C4: an empty query (after trimming and whitespace splitting) returns
every artwork in store order; a non-empty query returns exactly the rows,
in store order, for which every lower-cased term is a substring of the
lower-cased name, the lower-cased artist, or one of the lower-cased tag
tokens. -/
theorem search_art_spec (q : List Char) (rows : List Artwork) :
    (queryTerms q = [] → search_art q rows = rows) ∧
    (¬ queryTerms q = [] →
      search_art q rows =
        rows.filter (fun a => decide (specMatch (queryTerms q) a))) := by
  constructor
  · intro h
    simp [search_art, h]
  · intro h
    simp only [search_art, if_neg h]
    apply List.filter_congr
    intro a _
    rw [Bool.eq_iff_iff]
    simp only [decide_eq_true_eq]
    exact codeMatches_iff_specMatch (queryTerms q) a

/-- Witness for `search_art_spec`: the query `\x20Cold ` (mixed case, padded)
filters a two-row store down to the row whose tags contain `cold`. -/
theorem search_art_spec_witness :
    search_art (s2l " Cold ")
        [⟨1, s2l "sunset", s2l "p1", s2l "ana", s2l "nature,warm"⟩,
         ⟨2, s2l "night", s2l "p2", s2l "bo", s2l "cold,dark"⟩] =
      List.filter
        (fun a => decide (specMatch (queryTerms (s2l " Cold ")) a))
        [⟨1, s2l "sunset", s2l "p1", s2l "ana", s2l "nature,warm"⟩,
         ⟨2, s2l "night", s2l "p2", s2l "bo", s2l "cold,dark"⟩] :=
  (search_art_spec (s2l " Cold ") _).2 (by decide)

/-- `os.path.join` with the POSIX separator used by the program's paths. -/
def pathJoin (a b : List Char) : List Char := a ++ '/' :: b

/-- `os.path.basename`: the final path component. -/
def basename (p : List Char) : List Char :=
  (p.reverse.takeWhile (fun c => ¬ c = '/')).reverse

/-- A file write: the path is present afterwards (overwriting is allowed). -/
def writeFile (p : List Char) (fs : List (List Char)) : List (List Char) :=
  if p ∈ fs then fs else p :: fs

/-- `os.remove` wrapped in `try/except`: the path is absent afterwards and a
missing file is tolerated. -/
def removeFile (p : List Char) (fs : List (List Char)) : List (List Char) :=
  fs.filter (fun q => ¬ q = p)

theorem mem_writeFile_self (p : List Char) (fs : List (List Char)) :
    p ∈ writeFile p fs := by
  unfold writeFile
  split
  · assumption
  · exact List.mem_cons_self p fs

theorem mem_writeFile_of_mem (p q : List Char) (fs : List (List Char))
    (h : q ∈ fs) : q ∈ writeFile p fs := by
  unfold writeFile
  split
  · exact h
  · exact List.mem_cons_of_mem p h

theorem mem_removeFile_of_ne (p q : List Char) (fs : List (List Char))
    (h : q ∈ fs) (hne : ¬ q = p) : q ∈ removeFile p fs :=
  List.mem_filter.mpr ⟨h, by simpa using hne⟩

theorem not_mem_removeFile_self (p : List Char) (fs : List (List Char)) :
    ¬ p ∈ removeFile p fs := by
  intro h
  have := (List.mem_filter.mp h).2
  simp at this

theorem not_mem_removeFile_of_not_mem (p q : List Char) (fs : List (List Char))
    (h : ¬ q ∈ fs) : ¬ q ∈ removeFile p fs := by
  intro hmem
  exact h (List.mem_filter.mp hmem).1

/-- Python lexicographic string order (by code point), used by `sorted`. -/
def strLeB : List Char → List Char → Bool
  | [], _ => true
  | _ :: _, [] => false
  | a :: as, b :: bs => if a = b then strLeB as bs else decide (a < b)

/-- `sorted(self.tags)`: the tag set's elements in Python sorted order. -/
def sortStrs (l : List (List Char)) : List (List Char) :=
  List.insertionSort (fun a b => strLeB a b = true) l

/-- The denormalized tags field written by the save worker:
`','.join(sorted(self.tags))`. -/
def tagsField (tags : List (List Char)) : List Char := joinComma (sortStrs tags)

/-- The tag upserts of the save worker: each tag is inserted into the `tags`
table with `sqlite3.IntegrityError` swallowed, i.e. duplicates are kept. -/
def insertTagRows (tags : List (List Char)) (tb : List (List Char)) :
    List (List Char) :=
  tags.foldl (fun acc t => if t ∈ acc then acc else acc ++ [t]) tb

/-- The observable actions of `SaveArtWorker.run`, in program order. -/
inductive SaveEvent where
  | writeFull (p : List Char)
  | mkThumbDir
  | writeThumb (p : List Char)
  | connectDb
  | execUpdate (i : Nat)
  | execInsert
  | removeFile (p : List Char)
  | tagInserts
  | commitTx
  | emitFinished
deriving DecidableEq

/-- The full-size path written by the worker: `art_<timestamp>.png` under the
image directory (`ts` stands for the decimal rendering of `int(time.time())`). -/
def fullPathOf (imageDir ts : List Char) : List Char :=
  pathJoin imageDir (s2l "art_" ++ ts ++ s2l ".png")

/-- The `thumbs` sibling directory of the image directory. -/
def thumbDirOf (imageDir : List Char) : List Char :=
  pathJoin imageDir (s2l "thumbs")

/-- The thumbnail path for a given file name. -/
def thumbPathOf (imageDir b : List Char) : List Char :=
  pathJoin (thumbDirOf imageDir) b

/-- Outcome of a successful `SaveArtWorker.run`: final tables, final
filesystem, the event trace, and the values carried by the `finished`
signal. -/
structure SaveOut where
  artworks : List Artwork
  tagTable : List (List Char)
  fs : List (List Char)
  events : List SaveEvent
  artId : Nat
  fullPath : List Char
deriving DecidableEq

/-- `SaveArtWorker.run` on its success path.  In program order: write the
full-size PNG, create the thumbs directory, write the thumbnail, open the
connection; with `existing = (id, old_path)` execute the row UPDATE, then
`os.remove` the old blob and its thumbnail; otherwise INSERT a new row
(`nextId` models the store-assigned rowid); then upsert the tags and commit,
and finally emit `finished(art_id, full)`. -/
def saveWorkerRun (imageDir ts name artist : List Char)
    (tags : List (List Char)) (existing : Option (Nat × List Char))
    (arts : List Artwork) (tagTable : List (List Char))
    (fs : List (List Char)) (nextId : Nat) : SaveOut :=
  let fname := s2l "art_" ++ ts ++ s2l ".png"
  let full := pathJoin imageDir fname
  let tpath := thumbPathOf imageDir fname
  let fs1 := writeFile tpath (writeFile full fs)
  match existing with
  | some (i, old) =>
    let oldThumb := thumbPathOf imageDir (basename old)
    { artworks := arts.map (fun a =>
        if a.id = i then
          { a with name := name, filepath := full, artist := artist,
                   tags := tagsField tags }
        else a),
      tagTable := insertTagRows tags tagTable,
      fs := removeFile oldThumb (removeFile old fs1),
      events := [SaveEvent.writeFull full, SaveEvent.mkThumbDir,
        SaveEvent.writeThumb tpath, SaveEvent.connectDb,
        SaveEvent.execUpdate i, SaveEvent.removeFile old,
        SaveEvent.removeFile oldThumb, SaveEvent.tagInserts,
        SaveEvent.commitTx, SaveEvent.emitFinished],
      artId := i, fullPath := full }
  | none =>
    { artworks := arts ++
        [{ id := nextId, name := name, filepath := full, artist := artist,
           tags := tagsField tags }],
      tagTable := insertTagRows tags tagTable,
      fs := fs1,
      events := [SaveEvent.writeFull full, SaveEvent.mkThumbDir,
        SaveEvent.writeThumb tpath, SaveEvent.connectDb, SaveEvent.execInsert,
        SaveEvent.tagInserts, SaveEvent.commitTx, SaveEvent.emitFinished],
      artId := nextId, fullPath := full }

/-- Claim C2 counterexample: a concrete replacing save.  The
`os.remove(old)` event sits at index 5 of the trace, no commit occurs among
the first six events, and the (only) commit occurs later: the delete of the
superseded blob is attempted before the row commit is durable. -/
theorem save_replace_counterexample :
    ((saveWorkerRun (s2l "/imgs") (s2l "7") (s2l "n") (s2l "ar") []
        (some (1, s2l "/imgs/old.png"))
        [⟨1, s2l "n", s2l "/imgs/old.png", s2l "ar", []⟩] []
        [s2l "/imgs/old.png"] 2).events.get? 5
      = some (SaveEvent.removeFile (s2l "/imgs/old.png"))) ∧
    ¬ SaveEvent.commitTx ∈ ((saveWorkerRun (s2l "/imgs") (s2l "7") (s2l "n")
        (s2l "ar") [] (some (1, s2l "/imgs/old.png"))
        [⟨1, s2l "n", s2l "/imgs/old.png", s2l "ar", []⟩] []
        [s2l "/imgs/old.png"] 2).events.take 6) ∧
    SaveEvent.commitTx ∈ (saveWorkerRun (s2l "/imgs") (s2l "7") (s2l "n")
        (s2l "ar") [] (some (1, s2l "/imgs/old.png"))
        [⟨1, s2l "n", s2l "/imgs/old.png", s2l "ar", []⟩] []
        [s2l "/imgs/old.png"] 2).events := by
  decide

/-- Claim C2 (amended): in a save that replaces an existing artwork's image,
the blob write (index 0 of the event trace) precedes the attempted row commit
(index 8), but the delete of the superseded old blob (index 5) is attempted
after the row UPDATE statement (index 4) and before the commit: no commit
precedes the delete. -/
theorem save_replace_event_order (imageDir ts name artist : List Char)
    (tags : List (List Char)) (i : Nat) (old : List Char)
    (arts : List Artwork) (tagTable : List (List Char))
    (fs : List (List Char)) (nextId : Nat) (evs : List SaveEvent)
    (hevs : evs = (saveWorkerRun imageDir ts name artist tags (some (i, old))
        arts tagTable fs nextId).events) :
    evs.get? 0 = some (SaveEvent.writeFull (fullPathOf imageDir ts)) ∧
    evs.get? 4 = some (SaveEvent.execUpdate i) ∧
    evs.get? 5 = some (SaveEvent.removeFile old) ∧
    evs.get? 8 = some SaveEvent.commitTx ∧
    ∀ j, j < 8 → ¬ evs.get? j = some SaveEvent.commitTx := by
  subst hevs
  refine ⟨rfl, rfl, rfl, rfl, ?_⟩
  intro j hj
  interval_cases j <;> simp [saveWorkerRun]

/-- Witness for `save_replace_event_order` at a concrete replacing save. -/
theorem save_replace_event_order_witness :
    ((saveWorkerRun (s2l "/imgs") (s2l "7") (s2l "n") (s2l "ar") []
        (some (1, s2l "/imgs/old.png"))
        [⟨1, s2l "n", s2l "/imgs/old.png", s2l "ar", []⟩] []
        [s2l "/imgs/old.png"] 2).events.get? 0
      = some (SaveEvent.writeFull (fullPathOf (s2l "/imgs") (s2l "7")))) ∧
    ¬ ((saveWorkerRun (s2l "/imgs") (s2l "7") (s2l "n") (s2l "ar") []
        (some (1, s2l "/imgs/old.png"))
        [⟨1, s2l "n", s2l "/imgs/old.png", s2l "ar", []⟩] []
        [s2l "/imgs/old.png"] 2).events.get? 3 = some SaveEvent.commitTx) := by
  have h := save_replace_event_order (s2l "/imgs") (s2l "7") (s2l "n")
    (s2l "ar") [] 1 (s2l "/imgs/old.png")
    [⟨1, s2l "n", s2l "/imgs/old.png", s2l "ar", []⟩] []
    [s2l "/imgs/old.png"] 2 _ rfl
  exact ⟨h.1, h.2.2.2.2 3 (by decide)⟩

/-- The operator's answer to the name-changed dialog of `ArtManager.save_art`
(rename the existing record, save as a brand-new record, or cancel). -/
inductive Intent where
  | rename
  | saveAsNew
  | cancel
deriving DecidableEq

/-- `SELECT ... FROM artworks WHERE id=?` (first matching row). -/
def lookupById (arts : List Artwork) (i : Nat) : Option Artwork :=
  arts.find? (fun a => decide (a.id = i))

/-- `SELECT ... FROM artworks WHERE name=?` (first matching row). -/
def lookupByName (arts : List Artwork) (n : List Char) : Option Artwork :=
  arts.find? (fun a => decide (a.name = n))

/-- The decision logic of `ArtManager.save_art`: computes the `existing`
argument handed to the worker.  `none` is a cancelled save; `some none` means
insert as new; `some (some (id, old_path))` means replace that row.  With a
current selection whose row exists and a changed nonempty name, the resolved
`intent` is consulted; otherwise the selection is updated in place.  Without a
resolved `existing`, a nonempty candidate name is checked for a collision and
the colliding row is overwritten. -/
def decideExisting (arts : List Artwork) (curId : Option Nat)
    (newName : List Char) (intent : Intent) :
    Option (Option (Nat × List Char)) :=
  let fromSel : Option (Option (Nat × List Char)) :=
    match curId with
    | none => some none
    | some i =>
      match lookupById arts i with
      | none => some none
      | some row =>
        if ¬ newName = [] ∧ ¬ newName = row.name then
          match intent with
          | Intent.cancel => none
          | Intent.rename => some (some (i, row.filepath))
          | Intent.saveAsNew => some none
        else some (some (i, row.filepath))
  match fromSel with
  | none => none
  | some (some e) => some (some e)
  | some none =>
    if newName = [] then some none
    else
      match lookupByName arts newName with
      | some row => some (some (row.id, row.filepath))
      | none => some none

theorem saveWorkerRun_replace_artworks (imageDir ts name artist : List Char)
    (tags : List (List Char)) (i : Nat) (old : List Char)
    (arts : List Artwork) (tagTable : List (List Char))
    (fs : List (List Char)) (nextId : Nat) :
    (saveWorkerRun imageDir ts name artist tags (some (i, old)) arts tagTable
        fs nextId).artworks =
      arts.map (fun a =>
        if a.id = i then
          { a with name := name, filepath := fullPathOf imageDir ts,
                   artist := artist, tags := tagsField tags }
        else a) := rfl

theorem saveWorkerRun_replace_artId (imageDir ts name artist : List Char)
    (tags : List (List Char)) (i : Nat) (old : List Char)
    (arts : List Artwork) (tagTable : List (List Char))
    (fs : List (List Char)) (nextId : Nat) :
    (saveWorkerRun imageDir ts name artist tags (some (i, old)) arts tagTable
        fs nextId).artId = i := rfl

theorem saveWorkerRun_replace_fs (imageDir ts name artist : List Char)
    (tags : List (List Char)) (i : Nat) (old : List Char)
    (arts : List Artwork) (tagTable : List (List Char))
    (fs : List (List Char)) (nextId : Nat)
    (h1 : ¬ fullPathOf imageDir ts = old)
    (h2 : ¬ fullPathOf imageDir ts = thumbPathOf imageDir (basename old)) :
    fullPathOf imageDir ts ∈ (saveWorkerRun imageDir ts name artist tags
        (some (i, old)) arts tagTable fs nextId).fs ∧
    ¬ old ∈ (saveWorkerRun imageDir ts name artist tags (some (i, old)) arts
        tagTable fs nextId).fs := by
  constructor
  · show fullPathOf imageDir ts ∈
      removeFile (thumbPathOf imageDir (basename old)) (removeFile old
        (writeFile (thumbPathOf imageDir (s2l "art_" ++ ts ++ s2l ".png"))
          (writeFile (fullPathOf imageDir ts) fs)))
    exact mem_removeFile_of_ne _ _ _
      (mem_removeFile_of_ne _ _ _
        (mem_writeFile_of_mem _ _ _ (mem_writeFile_self _ _)) h1) h2
  · show ¬ old ∈
      removeFile (thumbPathOf imageDir (basename old)) (removeFile old
        (writeFile (thumbPathOf imageDir (s2l "art_" ++ ts ++ s2l ".png"))
          (writeFile (fullPathOf imageDir ts) fs)))
    exact not_mem_removeFile_of_not_mem _ _ _ (not_mem_removeFile_self old _)

/-- Claim C7: the save decision logic.  (1) With no current selection and a
nonempty candidate name colliding with an existing artwork, the worker is
handed that row and overwrites it: same row id, the record now carries the new
image path and metadata, all other rows are untouched, the new blob is on disk
and the superseded old blob has been removed.  (2) With a current selection
whose candidate name is unchanged, the same holds for the selected row (update
in place).  The two path hypotheses state that the freshly generated
`art_<ts>.png` name differs from the old blob and old thumbnail paths. -/
theorem save_art_decision_spec (imageDir ts artist : List Char)
    (tags : List (List Char)) (arts : List Artwork)
    (tagTable : List (List Char)) (fs : List (List Char)) (nextId : Nat)
    (intent : Intent) :
    (∀ newName row, ¬ newName = [] → lookupByName arts newName = some row →
      ¬ fullPathOf imageDir ts = row.filepath →
      ¬ fullPathOf imageDir ts = thumbPathOf imageDir (basename row.filepath) →
      decideExisting arts none newName intent
          = some (some (row.id, row.filepath)) ∧
      (saveWorkerRun imageDir ts newName artist tags
          (some (row.id, row.filepath)) arts tagTable fs nextId).artId
          = row.id ∧
      (Artwork.mk row.id newName (fullPathOf imageDir ts) artist
          (tagsField tags)) ∈
        (saveWorkerRun imageDir ts newName artist tags
          (some (row.id, row.filepath)) arts tagTable fs nextId).artworks ∧
      (∀ b ∈ arts, ¬ b.id = row.id →
        b ∈ (saveWorkerRun imageDir ts newName artist tags
          (some (row.id, row.filepath)) arts tagTable fs nextId).artworks) ∧
      fullPathOf imageDir ts ∈ (saveWorkerRun imageDir ts newName artist tags
          (some (row.id, row.filepath)) arts tagTable fs nextId).fs ∧
      ¬ row.filepath ∈ (saveWorkerRun imageDir ts newName artist tags
          (some (row.id, row.filepath)) arts tagTable fs nextId).fs) ∧
    (∀ i newName row, lookupById arts i = some row → newName = row.name →
      ¬ fullPathOf imageDir ts = row.filepath →
      ¬ fullPathOf imageDir ts = thumbPathOf imageDir (basename row.filepath) →
      decideExisting arts (some i) newName intent
          = some (some (i, row.filepath)) ∧
      (saveWorkerRun imageDir ts newName artist tags (some (i, row.filepath))
          arts tagTable fs nextId).artId = i ∧
      (Artwork.mk i newName (fullPathOf imageDir ts) artist
          (tagsField tags)) ∈
        (saveWorkerRun imageDir ts newName artist tags (some (i, row.filepath))
          arts tagTable fs nextId).artworks ∧
      (∀ b ∈ arts, ¬ b.id = i →
        b ∈ (saveWorkerRun imageDir ts newName artist tags
          (some (i, row.filepath)) arts tagTable fs nextId).artworks) ∧
      fullPathOf imageDir ts ∈ (saveWorkerRun imageDir ts newName artist tags
          (some (i, row.filepath)) arts tagTable fs nextId).fs ∧
      ¬ row.filepath ∈ (saveWorkerRun imageDir ts newName artist tags
          (some (i, row.filepath)) arts tagTable fs nextId).fs) := by
  constructor
  · intro newName row hn hrow hp1 hp2
    have hmem : row ∈ arts := List.mem_of_find?_eq_some hrow
    refine ⟨?_, saveWorkerRun_replace_artId _ _ _ _ _ _ _ _ _ _ _, ?_, ?_,
      (saveWorkerRun_replace_fs _ _ _ _ _ _ _ _ _ _ _ hp1 hp2).1,
      (saveWorkerRun_replace_fs _ _ _ _ _ _ _ _ _ _ _ hp1 hp2).2⟩
    · unfold decideExisting
      simp [hn, hrow]
    · rw [saveWorkerRun_replace_artworks]
      refine List.mem_map.mpr ⟨row, hmem, ?_⟩
      rw [if_pos rfl]
    · intro b hb hbne
      rw [saveWorkerRun_replace_artworks]
      refine List.mem_map.mpr ⟨b, hb, ?_⟩
      rw [if_neg hbne]
  · intro i newName row hrow hname hp1 hp2
    have hrow' : arts.find? (fun a => decide (a.id = i)) = some row := hrow
    have hmem : row ∈ arts := List.mem_of_find?_eq_some hrow'
    have hpred := List.find?_some hrow'
    have hid : row.id = i := by simpa using hpred
    refine ⟨?_, saveWorkerRun_replace_artId _ _ _ _ _ _ _ _ _ _ _, ?_, ?_,
      (saveWorkerRun_replace_fs _ _ _ _ _ _ _ _ _ _ _ hp1 hp2).1,
      (saveWorkerRun_replace_fs _ _ _ _ _ _ _ _ _ _ _ hp1 hp2).2⟩
    · unfold decideExisting
      simp [hrow, hname]
    · rw [saveWorkerRun_replace_artworks]
      refine List.mem_map.mpr ⟨row, hmem, ?_⟩
      rw [if_pos hid, hid]
    · intro b hb hbne
      rw [saveWorkerRun_replace_artworks]
      refine List.mem_map.mpr ⟨b, hb, ?_⟩
      rw [if_neg hbne]

/-- Witness for `save_art_decision_spec`: a one-row store named `n`; a save
with no selection and candidate name `n` resolves to overwriting row 1, and a
save with row 1 selected and unchanged name `n` resolves to updating row 1 in
place; in both cases the old blob is gone afterwards. -/
theorem save_art_decision_spec_witness :
    (decideExisting [⟨1, s2l "n", s2l "/i/old.png", s2l "ar", []⟩] none
        (s2l "n") Intent.cancel = some (some (1, s2l "/i/old.png"))) ∧
    (decideExisting [⟨1, s2l "n", s2l "/i/old.png", s2l "ar", []⟩] (some 1)
        (s2l "n") Intent.cancel = some (some (1, s2l "/i/old.png"))) ∧
    ¬ (s2l "/i/old.png") ∈ (saveWorkerRun (s2l "/i") (s2l "9") (s2l "n")
        (s2l "ar2") [] (some (1, s2l "/i/old.png"))
        [⟨1, s2l "n", s2l "/i/old.png", s2l "ar", []⟩] []
        [s2l "/i/old.png"] 2).fs := by
  have h := save_art_decision_spec (s2l "/i") (s2l "9") (s2l "ar2") []
    [⟨1, s2l "n", s2l "/i/old.png", s2l "ar", []⟩] [] [s2l "/i/old.png"] 2
    Intent.cancel
  have h1 := h.1 (s2l "n") ⟨1, s2l "n", s2l "/i/old.png", s2l "ar", []⟩
    (by decide) (by decide) (by decide) (by decide)
  have h2 := h.2 1 (s2l "n") ⟨1, s2l "n", s2l "/i/old.png", s2l "ar", []⟩
    (by decide) (by decide) (by decide) (by decide)
  exact ⟨h1.1, h2.1, h1.2.2.2.2.2⟩

/-- Helper for `os.path.splitext`: splits a file name at its last dot,
returning the part before and the part from the dot on; `none` when no dot
occurs. -/
def breakAtLastDot : List Char → Option (List Char × List Char)
  | [] => none
  | c :: rest =>
    match breakAtLastDot rest with
    | some (b, a) => some (c :: b, a)
    | none => if c = '.' then some ([], c :: rest) else none

/-- `os.path.splitext` on a bare file name (no directory separators): split at
the last dot unless every character before it is a dot (so `.bashrc` has no
extension). -/
def splitExt (s : List Char) : List Char × List Char :=
  match breakAtLastDot s with
  | none => (s, [])
  | some (b, a) => if b.all (fun c => c = '.') then (s, []) else (b, a)

/-- The lower-cased extension `os.path.splitext(fname)[1].lower()`. -/
def extOf (fname : List Char) : List Char := lowerStr (splitExt fname).2

/-- The display name derived from the source file:
`os.path.splitext(fname)[0]`. -/
def stemOf (fname : List Char) : List Char := (splitExt fname).1

/-- The import whitelist `(".png", ".jpg", ".jpeg", ".bmp", ".gif")`. -/
def whitelistExts : List (List Char) :=
  [s2l ".png", s2l ".jpg", s2l ".jpeg", s2l ".bmp", s2l ".gif"]

/-- A directory entry seen by `os.listdir`: its name and whether
`os.path.isfile` holds for it. -/
structure FolderEntry where
  fname : List Char
  isFile : Bool
deriving DecidableEq

/-- The blob name generated for an imported file:
`f"art_{int(time.time())}_{fname}"` (`ts` is the decimal rendering of the
timestamp). -/
def dstNameOf (ts fname : List Char) : List Char :=
  s2l "art_" ++ ts ++ '_' :: fname

/-- State threaded through `ImportFolderWorker.run`'s loop: the artwork rows
visible on this connection (committed plus this batch's uncommitted inserts),
the files on disk, the duplicates list, and the next store-assigned rowid. -/
structure ImpState where
  artworks : List Artwork
  fs : List (List Char)
  duplicates : List (List Char)
  nextId : Nat
deriving DecidableEq

/-- One iteration of `ImportFolderWorker.run`'s loop: skip non-regular files
and non-whitelisted extensions; otherwise copy the blob, write the thumbnail,
and attempt the INSERT; `sqlite3.IntegrityError` (duplicate name or duplicate
filepath) appends the stem to the duplicates list instead of inserting. -/
def folderImportStep (imageDir ts : List Char) (st : ImpState) (e : FolderEntry) :
    ImpState :=
  if ¬ e.isFile = true then st
  else if ¬ extOf e.fname ∈ whitelistExts then st
  else
    let dst := pathJoin imageDir (dstNameOf ts e.fname)
    let tpath := thumbPathOf imageDir (dstNameOf ts e.fname)
    let fs1 := writeFile tpath (writeFile dst st.fs)
    let base := stemOf e.fname
    if base ∈ st.artworks.map Artwork.name ∨
        dst ∈ st.artworks.map Artwork.filepath then
      { st with fs := fs1, duplicates := st.duplicates ++ [base] }
    else
      { artworks := st.artworks ++ [⟨st.nextId, base, dst, [], []⟩],
        fs := fs1, duplicates := st.duplicates, nextId := st.nextId + 1 }

/-- The whole import loop over the directory listing. -/
def folderImportRun (imageDir ts : List Char) (entries : List FolderEntry)
    (st : ImpState) : ImpState :=
  entries.foldl (folderImportStep imageDir ts) st

/-- The completion report carried by the `finished` signal: `None` when no
duplicates were recorded, otherwise the skipped names listed in the summary
message. -/
def folderImportReport (st : ImpState) : Option (List (List Char)) :=
  if st.duplicates = [] then none else some st.duplicates

/-- Claim C5 counterexample: importing `a.png` into a catalog that already has
an artwork named `a` records the stem `a` in the duplicates list, not the
source filename `a.png`. -/
theorem folder_import_duplicates_counterexample :
    ((folderImportRun (s2l "/imgs") (s2l "7") [⟨s2l "a.png", true⟩]
        ⟨[⟨1, s2l "a", s2l "/imgs/a0.png", [], []⟩], [], [], 2⟩).duplicates
      = [s2l "a"]) ∧
    ¬ (s2l "a.png") ∈ (folderImportRun (s2l "/imgs") (s2l "7") [⟨s2l "a.png", true⟩]
        ⟨[⟨1, s2l "a", s2l "/imgs/a0.png", [], []⟩], [], [], 2⟩).duplicates := by
  decide

/-- Claim C5 (amended): during a bulk folder import, non-regular files and
files with a non-whitelisted extension are skipped with no state change; an
accepted file whose derived display name collides with an existing catalog
entry adds no row and appends its base name without extension (the derived
display name, not the full source filename) to the duplicates list; the loop
always continues with the remaining entries; and the completion report is
empty exactly when no duplicates were recorded, and otherwise lists every
skipped name. -/
theorem folder_import_batch_spec (imageDir ts : List Char) :
    (∀ st e, (¬ e.isFile = true ∨ ¬ extOf e.fname ∈ whitelistExts) →
      folderImportStep imageDir ts st e = st) ∧
    (∀ st e, e.isFile = true → extOf e.fname ∈ whitelistExts →
      stemOf e.fname ∈ st.artworks.map Artwork.name →
      (folderImportStep imageDir ts st e).artworks = st.artworks ∧
      (folderImportStep imageDir ts st e).duplicates
        = st.duplicates ++ [stemOf e.fname]) ∧
    (∀ st e entries, folderImportRun imageDir ts (e :: entries) st
      = folderImportRun imageDir ts entries (folderImportStep imageDir ts st e)) ∧
    (∀ st, (folderImportReport st = none ↔ st.duplicates = []) ∧
      (¬ st.duplicates = [] → folderImportReport st = some st.duplicates)) := by
  refine ⟨?_, ?_, ?_, ?_⟩
  · intro st e h
    rcases h with h | h
    · simp [folderImportStep, h]
    · simp [folderImportStep, h]
  · intro st e hf hext hcol
    constructor
    · simp [folderImportStep, hf, hext, hcol]
    · simp [folderImportStep, hf, hext, hcol]
  · intro st e entries
    rfl
  · intro st
    by_cases h : st.duplicates = []
    · simp [folderImportReport, h]
    · simp [folderImportReport, h]

/-- Witness for `folder_import_batch_spec`: a text file is skipped without any state
change, and the colliding `a.png` appends the stem `a` to the (previously
empty) duplicates list. -/
theorem folder_import_batch_spec_witness :
    (folderImportStep (s2l "/imgs") (s2l "7")
        ⟨[⟨1, s2l "a", s2l "/imgs/a0.png", [], []⟩], [], [], 2⟩
        ⟨s2l "notes.txt", true⟩
      = ⟨[⟨1, s2l "a", s2l "/imgs/a0.png", [], []⟩], [], [], 2⟩) ∧
    ((folderImportStep (s2l "/imgs") (s2l "7")
        ⟨[⟨1, s2l "a", s2l "/imgs/a0.png", [], []⟩], [], [], 2⟩
        ⟨s2l "a.png", true⟩).duplicates = [] ++ [s2l "a"]) := by
  have h := folder_import_batch_spec (s2l "/imgs") (s2l "7")
  refine ⟨h.1 _ _ (Or.inr (by decide)), ?_⟩
  have h2 := (h.2.1 ⟨[⟨1, s2l "a", s2l "/imgs/a0.png", [], []⟩], [], [], 2⟩
    ⟨s2l "a.png", true⟩ (by decide) (by decide) (by decide)).2
  exact h2

/-- Claim C9: an accepted image file whose derived display name collides with
an existing catalog entry still has its full-size copy and thumbnail on disk
after the failed insert (the copies are made before the INSERT is attempted
and never cleaned up), the catalog rows are unchanged, so the copy stays
unreferenced by any row, and the name is recorded as a duplicate. -/
theorem folder_import_duplicate_orphan (imageDir ts : List Char) (st : ImpState)
    (e : FolderEntry) (hf : e.isFile = true)
    (hext : extOf e.fname ∈ whitelistExts)
    (hcol : stemOf e.fname ∈ st.artworks.map Artwork.name) :
    pathJoin imageDir (dstNameOf ts e.fname)
        ∈ (folderImportStep imageDir ts st e).fs ∧
    thumbPathOf imageDir (dstNameOf ts e.fname)
        ∈ (folderImportStep imageDir ts st e).fs ∧
    (folderImportStep imageDir ts st e).artworks = st.artworks ∧
    (¬ pathJoin imageDir (dstNameOf ts e.fname)
        ∈ st.artworks.map Artwork.filepath →
      ¬ pathJoin imageDir (dstNameOf ts e.fname)
        ∈ (folderImportStep imageDir ts st e).artworks.map Artwork.filepath) ∧
    (folderImportStep imageDir ts st e).duplicates
      = st.duplicates ++ [stemOf e.fname] := by
  have hstep : folderImportStep imageDir ts st e =
      { st with
        fs := writeFile (thumbPathOf imageDir (dstNameOf ts e.fname))
          (writeFile (pathJoin imageDir (dstNameOf ts e.fname)) st.fs),
        duplicates := st.duplicates ++ [stemOf e.fname] } := by
    simp [folderImportStep, hf, hext, hcol]
  rw [hstep]
  refine ⟨?_, ?_, rfl, ?_, rfl⟩
  · exact mem_writeFile_of_mem _ _ _ (mem_writeFile_self _ _)
  · exact mem_writeFile_self _ _
  · intro h
    exact h

/-- Witness for `folder_import_duplicate_orphan` at the colliding `a.png` import:
the fresh blob and thumbnail are on disk afterwards while the rows did not
change. -/
theorem folder_import_duplicate_orphan_witness :
    pathJoin (s2l "/imgs") (dstNameOf (s2l "7") (s2l "a.png"))
        ∈ (folderImportStep (s2l "/imgs") (s2l "7")
          ⟨[⟨1, s2l "a", s2l "/imgs/a0.png", [], []⟩], [], [], 2⟩
          ⟨s2l "a.png", true⟩).fs ∧
    (folderImportStep (s2l "/imgs") (s2l "7")
        ⟨[⟨1, s2l "a", s2l "/imgs/a0.png", [], []⟩], [], [], 2⟩
        ⟨s2l "a.png", true⟩).artworks
      = [⟨1, s2l "a", s2l "/imgs/a0.png", [], []⟩] := by
  have h := folder_import_duplicate_orphan (s2l "/imgs") (s2l "7")
    ⟨[⟨1, s2l "a", s2l "/imgs/a0.png", [], []⟩], [], [], 2⟩
    ⟨s2l "a.png", true⟩ (by decide) (by decide) (by decide)
  exact ⟨h.1, h.2.2.1⟩

/-- `ArtManager.delete_current`: with no selection nothing happens; otherwise
the selected row's filepath is fetched, `os.remove`d if the row exists
(missing file tolerated by the bare `try/except`), and the row is deleted.
No thumbnail removal is attempted anywhere in the method. -/
def delete_current (curId : Option Nat) (arts : List Artwork)
    (fs : List (List Char)) : List Artwork × List (List Char) :=
  match curId with
  | none => (arts, fs)
  | some i =>
    let fsAfter :=
      match lookupById arts i with
      | some a => removeFile a.filepath fs
      | none => fs
    (arts.filter (fun a => ¬ a.id = i), fsAfter)

/-- Claim C10: deleting the currently selected artwork removes its catalog row
and its full-size blob (tolerating a missing file: the conclusion holds
whether or not the blob was on disk), while every other path on disk —
in particular the thumbnail, whose path under the `thumbs` directory provably
differs from the full-size path — is left untouched. -/
theorem delete_current_spec (arts : List Artwork) (fs : List (List Char))
    (i : Nat) (a : Artwork) (h : lookupById arts i = some a) :
    (∀ b ∈ (delete_current (some i) arts fs).1, ¬ b.id = i) ∧
    ¬ a.filepath ∈ (delete_current (some i) arts fs).2 ∧
    (∀ p ∈ fs, ¬ p = a.filepath → p ∈ (delete_current (some i) arts fs).2) ∧
    (∀ imageDir bname, a.filepath = pathJoin imageDir bname →
      ¬ thumbPathOf imageDir bname = a.filepath) := by
  have hout : delete_current (some i) arts fs =
      (arts.filter (fun b => ¬ b.id = i), removeFile a.filepath fs) := by
    simp [delete_current, h]
  rw [hout]
  refine ⟨?_, not_mem_removeFile_self _ _, ?_, ?_⟩
  · intro b hb
    have := (List.mem_filter.mp hb).2
    simpa using this
  · intro p hp hne
    exact mem_removeFile_of_ne _ _ _ hp hne
  · intro imageDir bname heq hth
    rw [heq] at hth
    have hlen := congrArg List.length hth
    simp [thumbPathOf, thumbDirOf, pathJoin, s2l] at hlen
    omega

/-- Witness for `delete_current_spec`: deleting row 1 removes `/i/f.png` from
disk but leaves the thumbnail `/i/thumbs/f.png` in place. -/
theorem delete_current_spec_witness :
    ¬ (s2l "/i/f.png") ∈ (delete_current (some 1)
        [⟨1, s2l "n", s2l "/i/f.png", [], []⟩]
        [s2l "/i/f.png", s2l "/i/thumbs/f.png"]).2 ∧
    (s2l "/i/thumbs/f.png") ∈ (delete_current (some 1)
        [⟨1, s2l "n", s2l "/i/f.png", [], []⟩]
        [s2l "/i/f.png", s2l "/i/thumbs/f.png"]).2 := by
  have h := delete_current_spec [⟨1, s2l "n", s2l "/i/f.png", [], []⟩]
    [s2l "/i/f.png", s2l "/i/thumbs/f.png"] 1
    ⟨1, s2l "n", s2l "/i/f.png", [], []⟩ (by decide)
  exact ⟨h.2.1, h.2.2.1 (s2l "/i/thumbs/f.png") (by decide) (by decide)⟩

/-- Signals a worker can emit towards the UI thread. -/
inductive WorkerSig where
  | progress (fname : List Char)
  | finished
  | error
deriving DecidableEq

/-- The signals emitted by `SaveArtWorker.run`: the entire body sits in one
`try` whose last statement is `finished.emit`, and the `except` handler emits
`error`; `failure` says whether any statement of the body raised. -/
def saveRunSignals (failure : Bool) : List WorkerSig :=
  if failure then [WorkerSig.error] else [WorkerSig.finished]

/-- The signals emitted by `ImportFolderWorker.run`.  The thumbs-directory
creation and `sqlite3.connect` run before the `try`: a failure there
(`prologueFailure`) propagates out of `run` with no signal at all.  Inside the
`try`, `progress` is emitted before each entry is processed; a failure while
processing entry `k` emits `error`, and the `finally` clause's
`finished.emit(msg)` then raises `UnboundLocalError` (`msg` is only assigned
after the loop), so no `finished` signal follows an `error`.  On success every
entry's progress is followed by one `finished`. -/
def folderImportSignals (entries : List FolderEntry) (prologueFailure : Bool)
    (failAt : Option Nat) : List WorkerSig :=
  if prologueFailure then []
  else
    match failAt with
    | none =>
      entries.map (fun e => WorkerSig.progress e.fname) ++ [WorkerSig.finished]
    | some k =>
      (entries.take (k + 1)).map (fun e => WorkerSig.progress e.fname)
        ++ [WorkerSig.error]

/-- Claim C8 counterexample: a failure in the import worker's setup (thumbs
directory creation or database connect, both before the `try`) emits no
signal at all — in particular no terminal error signal — so the failure is
silently dropped. -/
theorem silent_import_failure_counterexample :
    folderImportSignals [⟨s2l "a.png", true⟩] true none = [] ∧
    ¬ WorkerSig.error ∈ folderImportSignals [⟨s2l "a.png", true⟩] true none := by
  decide

/-- Claim C8 (amended): every failure raised inside the workers' `try` bodies
is reported as the error signal, which is distinguishable from the success
signal, and a failed run never also delivers the success completion;
successful runs deliver the success completion and no error.  Failures in
the import worker's setup before the `try` (thumbs directory creation,
database connect) are the exception: they emit nothing. -/
theorem worker_failure_signals :
    (saveRunSignals true = [WorkerSig.error]) ∧
    (saveRunSignals false = [WorkerSig.finished]) ∧
    (∀ entries k, WorkerSig.error ∈ folderImportSignals entries false (some k) ∧
      ¬ WorkerSig.finished ∈ folderImportSignals entries false (some k)) ∧
    (∀ entries, WorkerSig.finished ∈ folderImportSignals entries false none ∧
      ¬ WorkerSig.error ∈ folderImportSignals entries false none) := by
  refine ⟨rfl, rfl, ?_, ?_⟩
  · intro entries k
    constructor
    · simp [folderImportSignals]
    · intro hmem
      simp [folderImportSignals] at hmem
      have hm2 := List.take_subset (k + 1) _ hmem
      simp at hm2
  · intro entries
    constructor
    · simp [folderImportSignals]
    · simp [folderImportSignals]

/-- Witness for `worker_failure_signals`: a failing import of one file emits
the error signal. -/
theorem worker_failure_signals_witness :
    WorkerSig.error ∈ folderImportSignals [⟨s2l "a.png", true⟩] false (some 0) ∧
    ¬ WorkerSig.finished ∈ folderImportSignals [⟨s2l "a.png", true⟩] false
      (some 0) :=
  worker_failure_signals.2.2.1 [⟨s2l "a.png", true⟩] 0
